import Mathlib

/-!
Verification of the core logic of `src/app.py` (cloud_price_compare).

Shallow embedding conventions:
* Python values read out of a catalog dict are modelled by `PyVal`:
  `PyVal.none` is Python `None` / a missing key, `PyVal.num q` is a value
  that `float(...)` converts to the rational `q` (ints, floats and numeric
  strings), and `PyVal.nonNum` is a present value on which `float(...)`
  raises.
* Python float arithmetic is embedded as exact rational arithmetic over `ℚ`.
* Python strings are `List Char`; the ASCII fragments of `\d`, `\s` and
  `re.IGNORECASE` are modelled (the catalog meter names the program parses
  are ASCII).
-/

/-- A Python value as seen by `dict.get` in `app.py`. -/
inductive PyVal where
  | none
  | num (q : ℚ)
  | nonNum
deriving DecidableEq

/-- One catalog entry, as consumed by `find_best_match` (`src/app.py:41`).
Only the keys `"vcpu"` and `"memoryGb"` are read by the matcher; the rest of
the dict (sku, prices, raw payload, ...) is irrelevant to matching and is
abstracted into the identifier `tag`, which keeps distinct records distinct. -/
structure Inst where
  vcpu : PyVal
  memoryGb : PyVal
  tag : ℕ
deriving DecidableEq

/-- Python's `abs` on a (here: rational-valued) float. -/
def pyAbs (q : ℚ) : ℚ :=
  if q < 0 then -q else q

theorem pyAbs_eq_abs (q : ℚ) : pyAbs q = |q| := by
  unfold pyAbs
  by_cases h : q < 0
  · rw [if_pos h, abs_of_neg h]
  · rw [if_neg h, abs_of_nonneg (not_lt.mp h)]

/-- The score expression of `src/app.py:58`:
`abs(float(cpu) - req_cpu) + abs(float(ram) - req_ram)`. -/
def scoreFn (c m reqCpu reqRam : ℚ) : ℚ :=
  pyAbs (c - reqCpu) + pyAbs (m - reqRam)

/-- Lines 50-60 of `src/app.py`: a record scores only when `vcpu` and
`memoryGb` are both present (`is not None`) and both convert under
`float(...)`; any other record is skipped (`continue`). -/
def scoreOf (inst : Inst) (reqCpu reqRam : ℚ) : Option ℚ :=
  match inst.vcpu, inst.memoryGb with
  | PyVal.num c, PyVal.num m => some (scoreFn c m reqCpu reqRam)
  | _, _ => none

/-- `score < best_score` where `best_score : Option ℚ` with `none`
standing for the initial `float('inf')` of `src/app.py:44`. -/
def ltBest (s : ℚ) : Option ℚ → Bool
  | none => true
  | some bs => decide (s < bs)

/-- The loop of `src/app.py:49-64`, carrying `best` and `best_score`. -/
def fbmGo (reqCpu reqRam : ℚ) : List Inst → Option Inst → Option ℚ → Option Inst
  | [], best, _ => best
  | inst :: rest, best, bestScore =>
    match scoreOf inst reqCpu reqRam with
    | none => fbmGo reqCpu reqRam rest best bestScore
    | some s =>
      if ltBest s bestScore then fbmGo reqCpu reqRam rest (some inst) (some s)
      else fbmGo reqCpu reqRam rest best bestScore

/-- `find_best_match` (`src/app.py:41-66`). The early
`if not instances: return None` is subsumed by the loop over the empty
list returning the initial `best = None`. -/
def find_best_match (instances : List Inst) (reqCpu reqRam : ℚ) : Option Inst :=
  fbmGo reqCpu reqRam instances none none

/-- Front-recursive restatement of the loop: the first record attaining the
minimal score among the eligible ones, paired with that score. Proved equal
to `find_best_match` in `fbmGo_none` below. -/
def selectFirstMin (reqCpu reqRam : ℚ) : List Inst → Option (Inst × ℚ)
  | [] => none
  | i :: rest =>
    match scoreOf i reqCpu reqRam, selectFirstMin reqCpu reqRam rest with
    | none, acc => acc
    | some s, none => some (i, s)
    | some s, some (b, bs) => if bs < s then some (b, bs) else some (i, s)

theorem selectFirstMin_nil (v r : ℚ) : selectFirstMin v r [] = none := rfl

theorem selectFirstMin_cons (v r : ℚ) (i : Inst) (rest : List Inst) :
    selectFirstMin v r (i :: rest) =
      match scoreOf i v r, selectFirstMin v r rest with
      | none, acc => acc
      | some s, none => some (i, s)
      | some s, some (b, bs) => if bs < s then some (b, bs) else some (i, s) := rfl

theorem fbmGo_some (v r : ℚ) (l : List Inst) :
    ∀ b0 : Inst, ∀ s0 : ℚ,
      fbmGo v r l (some b0) (some s0) =
        match selectFirstMin v r l with
        | none => some b0
        | some (b, s) => if s < s0 then some b else some b0 := by
  induction l with
  | nil => intro b0 s0; rfl
  | cons i rest ih =>
    intro b0 s0
    cases hsc : scoreOf i v r with
    | none =>
      simp only [fbmGo, hsc, selectFirstMin_cons]
      exact ih b0 s0
    | some s =>
      simp only [fbmGo, hsc, selectFirstMin_cons, ltBest]
      by_cases hlt : s < s0
      · rw [if_pos (decide_eq_true hlt), ih i s]
        cases hrest : selectFirstMin v r rest with
        | none => simp [hlt]
        | some p =>
          obtain ⟨b, bs⟩ := p
          by_cases hbs : bs < s
          · have : bs < s0 := lt_trans hbs hlt
            simp [hbs, this]
          · simp [hbs, hlt]
      · rw [if_neg (by simp [hlt]), ih b0 s0]
        cases hrest : selectFirstMin v r rest with
        | none => simp [hlt]
        | some p =>
          obtain ⟨b, bs⟩ := p
          by_cases hbs : bs < s
          · simp [hbs]
          · have hss0 : s0 ≤ s := not_lt.mp hlt
            have hsbs : s ≤ bs := not_lt.mp hbs
            have : ¬ bs < s0 := not_lt.mpr (le_trans hss0 hsbs)
            simp [hbs, hlt, this]

theorem fbmGo_none (v r : ℚ) (l : List Inst) :
    fbmGo v r l none none = Option.map Prod.fst (selectFirstMin v r l) := by
  induction l with
  | nil => rfl
  | cons i rest ih =>
    cases hsc : scoreOf i v r with
    | none => simp only [fbmGo, hsc, selectFirstMin_cons]; exact ih
    | some s =>
      simp only [fbmGo, hsc, selectFirstMin_cons, ltBest]
      rw [if_pos trivial, fbmGo_some v r rest i s]
      cases hrest : selectFirstMin v r rest with
      | none => rfl
      | some p =>
        obtain ⟨b, bs⟩ := p
        by_cases hbs : bs < s <;> simp [hbs]

theorem selectFirstMin_eq_none_iff (v r : ℚ) (l : List Inst) :
    selectFirstMin v r l = none ↔ ∀ i ∈ l, scoreOf i v r = none := by
  induction l with
  | nil => simp [selectFirstMin_nil]
  | cons i rest ih =>
    rw [selectFirstMin_cons]
    cases hsc : scoreOf i v r with
    | none =>
      simp only [List.mem_cons]
      constructor
      · intro h j hj
        rcases hj with hj | hj
        · exact hj ▸ hsc
        · exact (ih.mp h) j hj
      · intro h
        exact ih.mpr fun j hj => h j (Or.inr hj)
    | some s =>
      cases hrest : selectFirstMin v r rest with
      | none =>
        simp only [List.mem_cons]
        constructor
        · intro h; exact absurd h (by simp)
        · intro h
          have := h i (Or.inl rfl)
          rw [hsc] at this
          exact absurd this (by simp)
      | some p =>
        obtain ⟨b, bs⟩ := p
        constructor
        · intro h
          by_cases hbs : bs < s <;> simp [hbs] at h
        · intro h
          have := h i (List.mem_cons_self i rest)
          rw [hsc] at this
          exact absurd this (by simp)

theorem selectFirstMin_sound (v r : ℚ) (l : List Inst) (b : Inst) (s : ℚ)
    (h : selectFirstMin v r l = some (b, s)) :
    scoreOf b v r = some s ∧
      ∃ l₁ l₂, l = l₁ ++ b :: l₂ ∧
        (∀ i ∈ l, ∀ t, scoreOf i v r = some t → s ≤ t) ∧
        (∀ i ∈ l₁, ∀ t, scoreOf i v r = some t → s < t) := by
  induction l generalizing b s with
  | nil => exact absurd h (by simp [selectFirstMin_nil])
  | cons i rest ih =>
    rw [selectFirstMin_cons] at h
    cases hsc : scoreOf i v r with
    | none =>
      rw [hsc] at h
      obtain ⟨hb, l₁, l₂, hdec, hmin, hstrict⟩ := ih b s h
      refine ⟨hb, i :: l₁, l₂, by rw [hdec]; rfl, ?_, ?_⟩
      · intro j hj t ht
        rcases List.mem_cons.mp hj with hj | hj
        · rw [hj, hsc] at ht; exact absurd ht (by simp)
        · exact hmin j hj t ht
      · intro j hj t ht
        rcases List.mem_cons.mp hj with hj | hj
        · rw [hj, hsc] at ht; exact absurd ht (by simp)
        · exact hstrict j hj t ht
    | some si =>
      rw [hsc] at h
      cases hrest : selectFirstMin v r rest with
      | none =>
        rw [hrest] at h
        have hb : i = b ∧ si = s := by
          have := Option.some.inj h
          exact ⟨congrArg Prod.fst this, congrArg Prod.snd this⟩
        obtain ⟨rfl, rfl⟩ := hb
        have hallnone := (selectFirstMin_eq_none_iff v r rest).mp hrest
        refine ⟨hsc, [], rest, rfl, ?_, by simp⟩
        intro j hj t ht
        rcases List.mem_cons.mp hj with hj | hj
        · rw [hj, hsc] at ht
          exact le_of_eq (Option.some.inj ht)
        · rw [hallnone j hj] at ht; exact absurd ht (by simp)
      | some p =>
        obtain ⟨b0, bs⟩ := p
        rw [hrest] at h
        change (if bs < si then some (b0, bs) else some (i, si)) = some (b, s) at h
        by_cases hbs : bs < si
        · rw [if_pos hbs] at h
          have hb : b0 = b ∧ bs = s := by
            have := Option.some.inj h
            exact ⟨congrArg Prod.fst this, congrArg Prod.snd this⟩
          obtain ⟨rfl, rfl⟩ := hb
          obtain ⟨hb, l₁, l₂, hdec, hmin, hstrict⟩ := ih b0 bs hrest
          refine ⟨hb, i :: l₁, l₂, by rw [hdec]; rfl, ?_, ?_⟩
          · intro j hj t ht
            rcases List.mem_cons.mp hj with hj | hj
            · rw [hj, hsc] at ht
              have : si = t := Option.some.inj ht
              exact le_of_lt (this ▸ hbs)
            · exact hmin j hj t ht
          · intro j hj t ht
            rcases List.mem_cons.mp hj with hj | hj
            · rw [hj, hsc] at ht
              have : si = t := Option.some.inj ht
              exact this ▸ hbs
            · exact hstrict j hj t ht
        · rw [if_neg hbs] at h
          have hb : i = b ∧ si = s := by
            have := Option.some.inj h
            exact ⟨congrArg Prod.fst this, congrArg Prod.snd this⟩
          obtain ⟨rfl, rfl⟩ := hb
          obtain ⟨hb0, l₁, l₂, hdec, hmin, hstrict⟩ := ih b0 bs hrest
          refine ⟨hsc, [], rest, rfl, ?_, by simp⟩
          intro j hj t ht
          rcases List.mem_cons.mp hj with hj | hj
          · rw [hj, hsc] at ht
            exact le_of_eq (Option.some.inj ht)
          · have hbst := hmin j hj t ht
            exact le_trans (not_lt.mp hbs) hbst

/-- The distance function exactly as the spec states it, with the spec's
weight `W = 4`: `|record.vcpu - req.vcpu| + |record.ram - req.ram| / 4`.
This definition follows the SPEC's words (not the source) and exists only to
be compared against the program's `scoreFn`. -/
def specDistance (c m reqCpu reqRam : ℚ) : ℚ :=
  |c - reqCpu| + |m - reqRam| / 4

/-- Sample records used by the concrete witnesses below. -/
def sampleA : Inst := ⟨PyVal.none, PyVal.num 32, 0⟩

def sampleB : Inst := ⟨PyVal.num 8, PyVal.num 32, 1⟩

def sampleC : Inst := ⟨PyVal.num 4, PyVal.num 16, 2⟩

def sampleCatalog : List Inst := [sampleA, sampleB, sampleC]

def sampleBad : Inst := ⟨PyVal.none, PyVal.num 3, 3⟩

/-- C1, counterexample: the program's score (`src/app.py:58`) does NOT divide
the RAM mismatch by the weight 4. At the record `(vcpu = 0, ram = 4)` and
requirement `(0, 0)` the program scores `4`, while the spec's formula gives
`0 + 4/4 = 1`. -/
theorem claim_C1_counterexample :
    scoreOf ⟨PyVal.num 0, PyVal.num 4, 0⟩ 0 0 = some 4 ∧
      specDistance 0 4 0 0 = 1 ∧
      scoreOf ⟨PyVal.num 0, PyVal.num 4, 0⟩ 0 0 ≠ some (specDistance 0 4 0 0) := by
  have h1 : scoreOf ⟨PyVal.num 0, PyVal.num 4, 0⟩ 0 0 = some 4 := by
    norm_num [scoreOf, scoreFn, pyAbs]
  have h2 : specDistance 0 4 0 0 = 1 := by
    rw [specDistance, sub_zero, sub_zero, abs_zero,
      abs_of_nonneg (by norm_num : (0:ℚ) ≤ 4)]
    norm_num
  refine ⟨h1, h2, ?_⟩
  rw [h1, h2]
  intro h
  exact absurd (Option.some.inj h) (by norm_num)

/-- C1, amended: for every record with numeric vcpu `c` and ram `m` and every
requirement `(v, r)`, the matching score used to rank the record equals
`|c - v| + |m - r|`: the unweighted L1 distance (weight `W = 1`; RAM mismatch
is NOT de-emphasized relative to vCPU mismatch). -/
theorem claim_C1_amended (i : Inst) (v r c m : ℚ)
    (hc : i.vcpu = PyVal.num c) (hm : i.memoryGb = PyVal.num m) :
    scoreOf i v r = some (|c - v| + |m - r|) := by
  simp [scoreOf, hc, hm, scoreFn, pyAbs_eq_abs]

/-- Witness for `claim_C1_amended` at the record `(vcpu = 0, ram = 4)` and
requirement `(1, 1)`. -/
theorem claim_C1_amended_witness :
    (⟨PyVal.num 0, PyVal.num 4, 0⟩ : Inst).vcpu = PyVal.num 0 ∧
      scoreOf ⟨PyVal.num 0, PyVal.num 4, 0⟩ 1 1 = some (|(0:ℚ) - 1| + |(4:ℚ) - 1|) :=
  ⟨rfl, claim_C1_amended ⟨PyVal.num 0, PyVal.num 4, 0⟩ 1 1 0 4 rfl rfl⟩

/-- C2: whenever the catalog has at least one eligible record (vcpu and ram
both present and numeric), `find_best_match` returns an eligible record whose
score is minimal over all eligible records, and every record strictly before
it in catalog order is either ineligible or scores strictly worse — i.e. it
is exactly the first element of the ascending stable sort by score. -/
theorem claim_C2 (l : List Inst) (v r : ℚ)
    (h : ∃ i ∈ l, (scoreOf i v r).isSome) :
    ∃ l₁ b l₂ s, l = l₁ ++ b :: l₂ ∧
      find_best_match l v r = some b ∧
      scoreOf b v r = some s ∧
      (∀ i ∈ l, ∀ t, scoreOf i v r = some t → s ≤ t) ∧
      (∀ i ∈ l₁, ∀ t, scoreOf i v r = some t → s < t) := by
  cases hm : selectFirstMin v r l with
  | none =>
    obtain ⟨i, hi, hsome⟩ := h
    rw [(selectFirstMin_eq_none_iff v r l).mp hm i hi] at hsome
    exact absurd hsome (by simp)
  | some p =>
    obtain ⟨b, s⟩ := p
    obtain ⟨hb, l₁, l₂, hdec, hmin, hstrict⟩ := selectFirstMin_sound v r l b s hm
    refine ⟨l₁, b, l₂, s, hdec, ?_, hb, hmin, hstrict⟩
    rw [find_best_match, fbmGo_none, hm]
    rfl

/-- Witness for `claim_C2`: on the sample catalog with requirement `(8, 32)`
the matcher returns an eligible, minimal, earliest record. -/
theorem claim_C2_witness :
    (∃ i ∈ sampleCatalog, (scoreOf i 8 32).isSome) ∧
      (∃ l₁ b l₂ s, sampleCatalog = l₁ ++ b :: l₂ ∧
        find_best_match sampleCatalog 8 32 = some b ∧
        scoreOf b 8 32 = some s ∧
        (∀ i ∈ sampleCatalog, ∀ t, scoreOf i 8 32 = some t → s ≤ t) ∧
        (∀ i ∈ l₁, ∀ t, scoreOf i 8 32 = some t → s < t)) :=
  ⟨⟨sampleB, by simp [sampleCatalog], by simp [sampleB, scoreOf]⟩,
    claim_C2 sampleCatalog 8 32
      ⟨sampleB, by simp [sampleCatalog], by simp [sampleB, scoreOf]⟩⟩

/-- C3: every record returned by `find_best_match` has both `vcpu` and
`memoryGb` present and convertible to a number; a record lacking either
field is never returned. -/
theorem claim_C3 (l : List Inst) (v r : ℚ) (b : Inst)
    (h : find_best_match l v r = some b) :
    ∃ c m : ℚ, b.vcpu = PyVal.num c ∧ b.memoryGb = PyVal.num m := by
  rw [find_best_match, fbmGo_none] at h
  cases hm : selectFirstMin v r l with
  | none => rw [hm] at h; exact absurd h (by simp)
  | some p =>
    obtain ⟨b0, s⟩ := p
    rw [hm] at h
    have hb : b0 = b := Option.some.inj h
    subst hb
    have hsc := (selectFirstMin_sound v r l b0 s hm).1
    cases hv : b0.vcpu <;> cases hmem : b0.memoryGb <;>
      simp [scoreOf, hv, hmem] at hsc
    exact ⟨_, _, rfl, rfl⟩

/-- Witness for `claim_C3`: the record returned on the sample catalog indeed
has numeric vcpu and ram. -/
theorem claim_C3_witness :
    find_best_match sampleCatalog 8 32 = some sampleB ∧
      (∃ c m : ℚ, sampleB.vcpu = PyVal.num c ∧ sampleB.memoryGb = PyVal.num m) :=
  ⟨by norm_num [find_best_match, fbmGo, sampleCatalog, sampleA, sampleB, sampleC,
      scoreOf, scoreFn, pyAbs, ltBest],
    claim_C3 sampleCatalog 8 32 sampleB
      (by norm_num [find_best_match, fbmGo, sampleCatalog, sampleA, sampleB, sampleC,
        scoreOf, scoreFn, pyAbs, ltBest])⟩

/-- C4: matching an empty catalog yields `none`, and so does matching a
catalog in which no record is eligible; no error is raised (the embedding is
a total function). -/
theorem claim_C4 (l : List Inst) (v r : ℚ) :
    find_best_match [] v r = none ∧
      ((∀ i ∈ l, scoreOf i v r = none) → find_best_match l v r = none) := by
  refine ⟨rfl, fun h => ?_⟩
  rw [find_best_match, fbmGo_none, (selectFirstMin_eq_none_iff v r l).mpr h]
  rfl

/-- Witness for `claim_C4`: a one-record catalog whose record lacks vcpu
yields no match. -/
theorem claim_C4_witness :
    (∀ i ∈ [sampleBad], scoreOf i 8 32 = none) ∧
      find_best_match [sampleBad] 8 32 = none :=
  ⟨by simp [sampleBad, scoreOf], (claim_C4 [sampleBad] 8 32).2 (by simp [sampleBad, scoreOf])⟩

/-- C8: matching is deterministic and idempotent — two runs of
`find_best_match` on identical inputs yield identical results. -/
theorem claim_C8 (l₁ l₂ : List Inst) (v₁ v₂ r₁ r₂ : ℚ)
    (hl : l₁ = l₂) (hv : v₁ = v₂) (hr : r₁ = r₂) :
    find_best_match l₁ v₁ r₁ = find_best_match l₂ v₂ r₂ := by
  rw [hl, hv, hr]

/-- Witness for `claim_C8` on the sample catalog. -/
theorem claim_C8_witness :
    sampleCatalog = sampleCatalog ∧ (8:ℚ) = 8 ∧ (32:ℚ) = 32 ∧
      find_best_match sampleCatalog 8 32 = find_best_match sampleCatalog 8 32 :=
  ⟨rfl, rfl, rfl, claim_C8 sampleCatalog sampleCatalog 8 8 32 32 rfl rfl rfl⟩

/-- C9: the score is monotone in each mismatch component — with ram fixed, a
record with larger `|vcpu - v|` never scores smaller, and symmetrically with
vcpu fixed for `|ram - r|`. -/
theorem claim_C9 (v r : ℚ) :
    (∀ m c₁ c₂ : ℚ, |c₁ - v| ≤ |c₂ - v| → scoreFn c₁ m v r ≤ scoreFn c₂ m v r) ∧
      (∀ c m₁ m₂ : ℚ, |m₁ - r| ≤ |m₂ - r| → scoreFn c m₁ v r ≤ scoreFn c m₂ v r) := by
  constructor
  · intro m c₁ c₂ h
    simp only [scoreFn, pyAbs_eq_abs]
    exact add_le_add_right h _
  · intro c m₁ m₂ h
    simp only [scoreFn, pyAbs_eq_abs]
    exact add_le_add_left h _

/-- Witness for `claim_C9` at requirement `(8, 32)`, ram fixed at 32,
comparing vcpu 8 against vcpu 9. -/
theorem claim_C9_witness :
    |(8:ℚ) - 8| ≤ |(9:ℚ) - 8| ∧ scoreFn 8 32 8 32 ≤ scoreFn 9 32 8 32 :=
  ⟨by rw [sub_self, abs_zero]; exact abs_nonneg _,
    (claim_C9 8 32).1 32 8 9 (by rw [sub_self, abs_zero]; exact abs_nonneg _)⟩

/-!
Regex fragment used by `parse_vcpu_ram_from_meter` (`src/app.py:19-38`) and
`fetch_gcp` (`src/app.py:260`). Both patterns have the shape `(\d+)REST`:
`(\d+)\s*vCPU` / `(\d+)\s*GiB` (with `re.IGNORECASE`) and `(\d+)(?:$|-)`.
`re.search` semantics: try start positions left to right; at a position the
greedy `\d+` tries the longest digit prefix first and backtracks. The ASCII
fragments of `\d`, `\s` and IGNORECASE case folding are modelled; the meter
names and GCP price-list keys the program parses are ASCII.
-/

/-- ASCII decimal digit — the fragment of Python's `\d` that occurs here. -/
def isDigitC (c : Char) : Bool :=
  decide (48 ≤ c.toNat ∧ c.toNat ≤ 57)

/-- ASCII whitespace matched by Python's `\s`: space, TAB, LF, CR, VT, FF. -/
def isPySpace (c : Char) : Bool :=
  decide (c.toNat = 32 ∨ c.toNat = 9 ∨ c.toNat = 10 ∨ c.toNat = 13 ∨
    c.toNat = 11 ∨ c.toNat = 12)

/-- ASCII lower-casing — the fragment of `re.IGNORECASE` folding needed. -/
def lowerC (c : Char) : Char :=
  if 65 ≤ c.toNat ∧ c.toNat ≤ 90 then Char.ofNat (c.toNat + 32) else c

/-- Case-insensitive literal match: does `s` start with the token `tok`? -/
def ciStarts : List Char → List Char → Bool
  | [], _ => true
  | _ :: _, [] => false
  | t :: ts, c :: cs => lowerC t == lowerC c && ciStarts ts cs

/-- Python `int(...)` on a matched group of decimal digits. -/
def digitsVal (g : List Char) : ℕ :=
  g.foldl (fun n c => 10 * n + (c.toNat - 48)) 0

/-- Greedy backtracking over the `\d+` of a pattern `(\d+)REST`: the input
at the current position splits as the maximal digit run `d` followed by
`rest`; group lengths `k, k-1, ..., 1` are tried in order, `after` deciding
whether REST matches the leftover input. -/
def tryLens (after : List Char → Bool) (d rest : List Char) : ℕ → Option (List Char)
  | 0 => none
  | Nat.succ k =>
    if after (d.drop (k + 1) ++ rest) then some (d.take (k + 1))
    else tryLens after d rest k

/-- One anchored attempt of `(\d+)REST` at the head of `s`, returning the
digits captured by group 1 on success. -/
def matchHere (after : List Char → Bool) (s : List Char) : Option (List Char) :=
  tryLens after (s.takeWhile isDigitC) (s.dropWhile isDigitC)
    (s.takeWhile isDigitC).length

/-- `re.search` for a pattern `(\d+)REST`: scan start positions left to
right; on the first success return `int` of group 1. -/
def reSearchNum (after : List Char → Bool) : List Char → Option ℕ
  | [] => none
  | c :: rest =>
    match matchHere after (c :: rest) with
    | some g => some (digitsVal g)
    | none => reSearchNum after rest

/-- REST of the meter patterns: `\s*TOK` with `TOK` a case-insensitive
literal. `TOK` begins with a letter, which `\s` never matches, so the greedy
`\s*` consumes exactly the maximal whitespace run — backtracking over `\s*`
cannot rescue a failed literal match. -/
def tokAfter (tok : List Char) (rest : List Char) : Bool :=
  ciStarts tok (rest.dropWhile isPySpace)

/-- The literal of `(\d+)\s*vCPU`, case-folded. -/
def vcpuTok : List Char := ['v', 'c', 'p', 'u']

/-- The literal of `(\d+)\s*GiB`, case-folded. -/
def gibTok : List Char := ['g', 'i', 'b']

/-- `parse_vcpu_ram_from_meter` (`src/app.py:19-38`). `if not meter_name`
returns `(None, None)` (Python `None` and `""` both arrive here as the empty
string); otherwise the two searches run independently on the same string.
The surrounding try/except blocks never fire — `int` on a digit group cannot
raise — so the embedding is a total function: the Python function never
throws. -/
def parse_vcpu_ram_from_meter (meter : List Char) : Option ℕ × Option ℕ :=
  if meter.isEmpty then (none, none)
  else (reSearchNum (tokAfter vcpuTok) meter, reSearchNum (tokAfter gibTok) meter)

theorem dropWhileLenLe (p : Char → Bool) (l : List Char) :
    (l.dropWhile p).length ≤ l.length := by
  induction l with
  | nil => exact le_rfl
  | cons c l ih =>
    rw [List.dropWhile_cons]
    by_cases h : p c
    · rw [if_pos h]
      simp only [List.length_cons]
      omega
    · rw [if_neg h]

/-- The claim's reading of the extraction: walk the string; at the first
(leftmost) maximal group of digits whose following text satisfies `after`,
return the group's integer value; skip other groups; `none` when no group
qualifies. -/
def specFirstGroup (after : List Char → Bool) : List Char → Option ℕ
  | [] => none
  | c :: rest =>
    if hc : isDigitC c then
      if after ((c :: rest).dropWhile isDigitC) then
        some (digitsVal ((c :: rest).takeWhile isDigitC))
      else specFirstGroup after ((c :: rest).dropWhile isDigitC)
    else specFirstGroup after rest
termination_by s => s.length
decreasing_by
  · rw [List.dropWhile_cons_of_pos hc]
    have := dropWhileLenLe isDigitC rest
    simp only [List.length_cons]
    omega
  · simp only [List.length_cons]
    omega

theorem tokAfter_not_digit (t : Char) (ts : List Char)
    (ht : 97 ≤ t.toNat ∧ t.toNat ≤ 122) :
    ∀ c cs, isDigitC c = true → tokAfter (t :: ts) (c :: cs) = false := by
  intro c cs hc
  rw [isDigitC, decide_eq_true_eq] at hc
  have hsp : ¬ (isPySpace c = true) := by
    rw [isPySpace, decide_eq_true_eq]
    omega
  rw [tokAfter, List.dropWhile_cons_of_neg hsp, ciStarts]
  have hlc : lowerC c = c := by
    rw [lowerC, if_neg (by omega)]
  have hlt : lowerC t = t := by
    rw [lowerC, if_neg (by omega)]
  rw [hlc, hlt]
  have hne : (t == c) = false := by
    rw [beq_eq_false_iff_ne]
    intro h
    have := congrArg Char.toNat h
    omega
  rw [hne, Bool.false_and]

theorem tryLens_none (after : List Char → Bool)
    (hdig : ∀ c cs, isDigitC c = true → after (c :: cs) = false)
    (d rest : List Char) (hd : ∀ x ∈ d, isDigitC x = true)
    (hrest : after rest = false) :
    ∀ k, k ≤ d.length → tryLens after d rest k = none := by
  intro k
  induction k with
  | zero => intro _; rfl
  | succ k ih =>
    intro hk
    rw [tryLens]
    by_cases he : k + 1 = d.length
    · rw [he, List.drop_length, List.nil_append, hrest]
      simp only [Bool.false_eq_true, if_false]
      exact ih (by omega)
    · have hlt : k + 1 < d.length := lt_of_le_of_ne hk he
      cases hdk : d.drop (k + 1) with
      | nil =>
        exfalso
        have := congrArg List.length hdk
        rw [List.length_drop] at this
        simp only [List.length_nil] at this
        omega
      | cons e tl =>
        have he_mem : e ∈ d := List.drop_subset _ d (hdk ▸ List.mem_cons_self e tl)
        simp only [List.cons_append, hdig e (tl ++ rest) (hd e he_mem),
          Bool.false_eq_true, if_false]
        exact ih (by omega)

theorem matchHere_none (after : List Char → Bool)
    (hdig : ∀ c cs, isDigitC c = true → after (c :: cs) = false)
    (s : List Char) (h : after (s.dropWhile isDigitC) = false) :
    matchHere after s = none := by
  rw [matchHere]
  exact tryLens_none after hdig _ _
    (fun x hx => List.mem_takeWhile_imp hx) h _ le_rfl

theorem matchHere_some (after : List Char → Bool) (s : List Char)
    (hne : s.takeWhile isDigitC ≠ [])
    (h : after (s.dropWhile isDigitC) = true) :
    matchHere after s = some (s.takeWhile isDigitC) := by
  rw [matchHere]
  cases hlen : (s.takeWhile isDigitC).length with
  | zero => exact absurd (List.eq_nil_of_length_eq_zero hlen) hne
  | succ k =>
    rw [tryLens, ← hlen, List.drop_length, List.nil_append, h,
      if_pos rfl, List.take_length]

theorem specFirstGroup_dropRun (after : List Char → Bool) (s : List Char)
    (h : after (s.dropWhile isDigitC) = false) :
    specFirstGroup after s = specFirstGroup after (s.dropWhile isDigitC) := by
  cases s with
  | nil => rfl
  | cons c rest =>
    by_cases hc : isDigitC c
    · rw [specFirstGroup, dif_pos hc, h]
      simp only [Bool.false_eq_true, if_false]
    · rw [List.dropWhile_cons_of_neg hc]

theorem reSearchNum_eq_specFirstGroup (after : List Char → Bool)
    (hdig : ∀ c cs, isDigitC c = true → after (c :: cs) = false)
    (s : List Char) : reSearchNum after s = specFirstGroup after s := by
  induction s with
  | nil => rw [reSearchNum, specFirstGroup]
  | cons c rest ih =>
    by_cases hc : isDigitC c
    · have htw : (c :: rest).takeWhile isDigitC ≠ [] := by
        rw [List.takeWhile_cons_of_pos hc]
        exact List.cons_ne_nil c _
      cases hafter : after ((c :: rest).dropWhile isDigitC) with
      | true =>
        rw [reSearchNum, matchHere_some after (c :: rest) htw hafter,
          specFirstGroup, dif_pos hc, hafter, if_pos rfl]
      | false =>
        rw [reSearchNum, matchHere_none after hdig (c :: rest) hafter, ih,
          specFirstGroup_dropRun after rest
            (by rwa [List.dropWhile_cons_of_pos hc] at hafter),
          specFirstGroup, dif_pos hc, hafter]
        simp only [Bool.false_eq_true, if_false]
        rw [List.dropWhile_cons_of_pos hc]
    · rw [reSearchNum, specFirstGroup, dif_neg hc, ← ih]
      have : matchHere after (c :: rest) = none := by
        rw [matchHere, List.takeWhile_cons_of_neg hc]
        rfl
      rw [this]

/-- C5: `parse_vcpu_ram_from_meter` is total (never throws; the embedding is
a plain function) and returns exactly the optional pair the claim describes:
for each token (`vCPU` / `GiB`, case-insensitive) the integer of the first
maximal group of digits immediately followed — up to whitespace — by that
token, absent when no such pattern occurs, and both components absent for
the empty (or missing, which reaches this code as empty) string. -/
theorem claim_C5 (meter : List Char) :
    parse_vcpu_ram_from_meter meter =
      (specFirstGroup (tokAfter vcpuTok) meter,
        specFirstGroup (tokAfter gibTok) meter) := by
  cases meter with
  | nil => simp [parse_vcpu_ram_from_meter, specFirstGroup]
  | cons c rest =>
    rw [parse_vcpu_ram_from_meter, if_neg (by simp),
      reSearchNum_eq_specFirstGroup (tokAfter vcpuTok)
        (tokAfter_not_digit 'v' ['c', 'p', 'u'] (by decide)),
      reSearchNum_eq_specFirstGroup (tokAfter gibTok)
        (tokAfter_not_digit 'g' ['i', 'b'] (by decide))]

/-- Concrete evaluation of the embedded parser on a typical meter name. -/
theorem parse_vcpu_ram_sample :
    parse_vcpu_ram_from_meter
        ['8', ' ', 'v', 'C', 'P', 'U', ',', ' ', '3', '2', ' ', 'G', 'i', 'B'] =
      (some 8, some 32) := by decide

/-- REST of the GCP pattern `(\d+)(?:$|-)`: end of input or a dash. -/
def endOrDash : List Char → Bool
  | [] => true
  | c :: _ => c == '-'

theorem endOrDash_not_digit :
    ∀ c cs, isDigitC c = true → endOrDash (c :: cs) = false := by
  intro c cs hc
  rw [isDigitC, decide_eq_true_eq] at hc
  have h45 : ('-').toNat = 45 := rfl
  rw [endOrDash, beq_eq_false_iff_ne]
  intro h
  rw [h, h45] at hc
  omega

/-- Python's banker's rounding `round(x)` on a rational value: nearest
integer, ties to even. -/
def roundHalfEven (q : ℚ) : ℤ :=
  if q - q.floor < 1 / 2 then q.floor
  else if 1 / 2 < q - q.floor then q.floor + 1
  else if q.floor % 2 = 0 then q.floor else q.floor + 1

/-- `round(x, 2)`: round to two decimal places. For the values produced in
`fetch_gcp` (integer multiples of 1/4, binary-exact as floats, already with
at most two decimal places) this agrees exactly with CPython's float
`round`. -/
def round2 (q : ℚ) : ℚ :=
  (roundHalfEven (q * 100) : ℚ) / 100

/-- One normalized GCP record (`src/app.py:278-286`); the sku/raw plumbing
fields no claim mentions are omitted. -/
structure GcpRecord where
  sku : List Char
  vcpu : Option ℕ
  memoryGb : Option ℚ
  pricePerHour : Option ℚ

/-- The vcpu/ram heuristic of `fetch_gcp` (`src/app.py:257-267`):
`re.search(r'(\d+)(?:$|-)', key)`; on a match `vcpu = int(m.group(1))` and
`ram = round(vcpu * 3.75, 2)` — 3.75 is exactly 15/4 as a float, and the
surrounding try/except cannot fire since `int` on a digit group cannot
raise; on no match both stay `None`. -/
def gcpVcpuRam (key : List Char) : Option ℕ × Option ℚ :=
  match reSearchNum endOrDash key with
  | some n => (some n, some (round2 ((n : ℚ) * (15 / 4))))
  | none => (none, none)

/-- The record appended by `fetch_gcp` for one price-list key
(`src/app.py:278-286`). The price pipeline (lines 243-276) never touches
vcpu/ram; it is handed in as the already-computed `unit_price_inr`. -/
def gcpNormalizeKey (key : List Char) (unitPriceInr : Option ℚ) : GcpRecord :=
  { sku := key
    vcpu := (gcpVcpuRam key).1
    memoryGb := (gcpVcpuRam key).2
    pricePerHour := unitPriceInr }

/-- C10: in every record produced by the GCP normalizer, `vcpu` and
`memoryGb` are both present or both absent, and when present
`memoryGb = round(vcpu * 3.75, 2)`: the RAM is synthesized from the parsed
vCPU count (never read from the source payload; the record is independent
of the price value taken from the payload). -/
theorem claim_C10 (key : List Char) (p : Option ℚ) :
    ((gcpNormalizeKey key p).vcpu.isSome ↔ (gcpNormalizeKey key p).memoryGb.isSome) ∧
      (∀ n : ℕ, (gcpNormalizeKey key p).vcpu = some n →
        (gcpNormalizeKey key p).memoryGb = some (round2 ((n : ℚ) * (15 / 4)))) := by
  cases h : reSearchNum endOrDash key with
  | none =>
    constructor
    · simp [gcpNormalizeKey, gcpVcpuRam, h]
    · intro n hn
      simp [gcpNormalizeKey, gcpVcpuRam, h] at hn
  | some n =>
    constructor
    · simp [gcpNormalizeKey, gcpVcpuRam, h]
    · intro n2 hn
      have hnn : n = n2 := by
        simpa [gcpNormalizeKey, gcpVcpuRam, h] using hn
      subst hnn
      simp [gcpNormalizeKey, gcpVcpuRam, h]

def gcpSampleKey : List Char :=
  ['n', '1', '-', 's', 't', 'a', 'n', 'd', 'a', 'r', 'd', '-', '8']

/-- Witness for `claim_C10` on the key `n1-standard-8` (the regex takes the
first digit run followed by a dash, here `1`). -/
theorem claim_C10_witness :
    (gcpNormalizeKey gcpSampleKey none).vcpu = some 1 ∧
      (gcpNormalizeKey gcpSampleKey none).memoryGb =
        some (round2 ((1 : ℚ) * (15 / 4))) :=
  ⟨by decide, (claim_C10 gcpSampleKey none).2 1 (by decide)⟩

/-- One normalized Azure record (`src/app.py:108-116`); the sku/skuId/raw
plumbing fields no claim mentions are omitted. -/
structure AzureRecord where
  vcpu : Option ℕ
  memoryGb : Option ℕ
  pricePerHour : Option ℚ

/-- Python `x or y` on an optional string: `None` and `""` are falsy. -/
def pyStrOr (a : Option (List Char)) (b : List Char) : List Char :=
  match a with
  | some (c :: cs) => c :: cs
  | _ => b

/-- `if vcpu is None: vcpu = vcpu2` (`src/app.py:100-103`). -/
def fillNone (a b : Option ℕ) : Option ℕ :=
  match a with
  | some x => some x
  | none => b

/-- The record appended by `fetch_azure` for one page item
(`src/app.py:91-116`): `meter = it.get("meterName") or it.get("productName")
or ""`; parse vcpu/ram from it; if either is missing, re-parse
`it.get("productName", "")` and fill only the missing ones; then
`price = it.get("retailPrice") if it.get("retailPrice") is not None else
it.get("unitPrice")` and `pricePerHour = price * 83` if the selected price
is numeric, else `None`. -/
def azureNormalizeItem (meterName productName : Option (List Char))
    (retailPrice unitPrice : PyVal) : AzureRecord :=
  let meter := pyStrOr meterName (pyStrOr productName [])
  let pr := parse_vcpu_ram_from_meter meter
  let pr2 :=
    if pr.1.isNone || pr.2.isNone then
      let q := parse_vcpu_ram_from_meter (productName.getD [])
      (fillNone pr.1 q.1, fillNone pr.2 q.2)
    else pr
  let price := if retailPrice ≠ PyVal.none then retailPrice else unitPrice
  { vcpu := pr2.1
    memoryGb := pr2.2
    pricePerHour :=
      match price with
      | PyVal.num q => some (q * 83)
      | _ => none }

theorem azurePricePerHour_eq (mN pN : Option (List Char)) (rP uP : PyVal) :
    (azureNormalizeItem mN pN rP uP).pricePerHour =
      match (if rP ≠ PyVal.none then rP else uP) with
      | PyVal.num q => some (q * 83)
      | _ => none := rfl

/-- C6: the normalized Azure `pricePerHour` is computed from the retail
price when that field is present (not `None`), only otherwise from the
generic unit price; a numeric selected price is multiplied by the fixed
constant 83, and a non-numeric selected price yields an absent price. -/
theorem claim_C6 (mN pN : Option (List Char)) (rP uP : PyVal) :
    (∀ q : ℚ, rP = PyVal.num q →
        (azureNormalizeItem mN pN rP uP).pricePerHour = some (q * 83)) ∧
      (rP = PyVal.none → ∀ q : ℚ, uP = PyVal.num q →
        (azureNormalizeItem mN pN rP uP).pricePerHour = some (q * 83)) ∧
      ((∀ q : ℚ, (if rP ≠ PyVal.none then rP else uP) ≠ PyVal.num q) →
        (azureNormalizeItem mN pN rP uP).pricePerHour = none) := by
  refine ⟨?_, ?_, ?_⟩
  · intro q hq
    subst hq
    rw [azurePricePerHour_eq, if_pos (show PyVal.num q ≠ PyVal.none by simp)]
  · intro hr q hq
    subst hr
    subst hq
    rw [azurePricePerHour_eq, if_neg (by simp)]
  · intro h
    rw [azurePricePerHour_eq]
    cases hsel : (if rP ≠ PyVal.none then rP else uP) with
    | none => rfl
    | num q => exact absurd hsel (h q)
    | nonNum => rfl

/-- Witness for `claim_C6`: a present retail price of 2 yields 166, even
with a conflicting unit price present. -/
theorem claim_C6_witness :
    PyVal.num 2 = PyVal.num 2 ∧
      (azureNormalizeItem none none (PyVal.num 2) (PyVal.num 5)).pricePerHour =
        some ((2 : ℚ) * 83) :=
  ⟨rfl, (claim_C6 none none (PyVal.num 2) (PyVal.num 5)).1 2 rfl⟩

/-- Modelled from the spec: the monthly-price derivation. The source file
under `src/` breaks off inside the Streamlit rendering section and the
monthly-price code itself is not present in it; the spec states
`monthlyPrice = hourlyPrice * 24 * 30` when the hourly price is present,
else absent. -/
def monthlyPrice : Option ℚ → Option ℚ
  | none => none
  | some h => some (h * 24 * 30)

/-- C7: the derived monthly price equals `hourlyPrice * 24 * 30` when the
hourly price is present and is absent when it is absent; an hourly price of
10 yields 7200. -/
theorem claim_C7 :
    (∀ h : ℚ, monthlyPrice (some h) = some (h * 24 * 30)) ∧
      monthlyPrice none = none ∧
      monthlyPrice (some 10) = some 7200 := by
  refine ⟨fun h => rfl, rfl, by norm_num [monthlyPrice]⟩
